import Mathlib

/-!
Verification of the qdoc manifest writer (manifestwriter.cpp).

This file gives a shallow embedding, in Lean, of the pure logic of the
manifest compiler: tag cleanup, module-name tokenization, filter-pattern
matching, manifest-meta attribute writing, file-to-open ranking, the
serialization order of fileToOpen blocks, the demo/example partition, and
the per-example tag-set lifecycle.  Sets of strings (QSet) are modelled as
Finset String; the QMap from priority to file is modelled as a key-sorted
association list; XML writer calls are modelled as the list of events they
produce.

QString primitives that Lean's String implements with byte positions
(startsWith, endsWith, toLower, split) are embedded as the corresponding
character-list operations, so that every definition evaluates by kernel
reduction.
-/

/-! ## String primitives -/

/-- Embeds QString::startsWith. -/
def strStartsWith (s p : String) : Bool := List.isPrefixOf p.toList s.toList

/-- Embeds QString::endsWith. -/
def strEndsWith (s p : String) : Bool := List.isSuffixOf p.toList s.toList

/-- Embeds QString::toLower. -/
def strToLower (s : String) : String := String.mk (s.toList.map Char.toLower)

/-- Embeds QString::split on a single separator character, keeping empty
parts (the Qt default). -/
def splitOnChar (sep : Char) : List Char → List (List Char)
  | [] => [[]]
  | c :: rest =>
    if c = sep then [] :: splitOnChar sep rest
    else
      match splitOnChar sep rest with
      | [] => [[c]]
      | group :: groups => (c :: group) :: groups

/-- String-level wrapper for splitOnChar. -/
def strSplitOn (s : String) (sep : Char) : List String :=
  (splitOnChar sep s.toList).map String.mk

/-! ## Tag cleanup (ManifestWriter::cleanUpTags) -/

/-- Embeds the per-tag rewriting done at the top of the cleanUpTags loop:
if the tag starts with a parenthesis, the leading character and the
trailing character are removed; afterwards a trailing colon is removed. -/
def stripTag (tag : String) : String :=
  let t := if strStartsWith tag "(" then (tag.drop 1).dropRight 1 else tag
  if strEndsWith t ":" then t.dropRight 1 else t

/-- Embeds the exclusion test of cleanUpTags, applied to the stripped tag:
the tag survives unless it is shorter than two characters, starts with a
digit or a dash, equals "qt", "the" or "and", or starts with "example" or
"chapter". -/
def keepTag (tag : String) : Bool :=
  !(tag.length < 2 || tag.front.isDigit || tag.front == '-'
    || tag == "qt" || tag == "the" || tag == "and"
    || strStartsWith tag "example" || strStartsWith tag "chapter")

/-- Embeds ManifestWriter::cleanUpTags: every tag of the set is stripped,
and the stripped tag is kept exactly when it passes the exclusion test. -/
def cleanUpTags (tags : Finset String) : Finset String :=
  (tags.filter (fun tag => keepTag (stripTag tag) = true)).image stripTag

/-! ## Module-name tokenization (ManifestWriter::addWordsFromModuleNamesAsTags)

The source matches the regular expression ([A-Z]+[a-z0-9]*(3D|GL)?)
repeatedly over the project identifier, resuming after each match.  With
backtracking-regex semantics the uppercase run and the run of lowercase
letters and digits are consumed greedily, and the optional 3D/GL suffix is
tried only at the position where the greedy runs stopped; since the
pattern can always complete with an empty suffix, no backtracking into the
greedy runs ever happens.  The scan below reproduces exactly that. -/

def isUpperAZ (c : Char) : Bool := 'A' ≤ c && c ≤ 'Z'

def isLowerOrDigitChar (c : Char) : Bool :=
  ('a' ≤ c && c ≤ 'z') || ('0' ≤ c && c ≤ '9')

/-- One regex match per recursive step: skip to the first uppercase letter
(the leftmost position where the pattern can match), take the maximal
uppercase run, then the maximal run of lowercase letters and digits, then
a literal 3D or GL when one starts right there.  The fuel argument bounds
the number of matches; each match consumes at least one character, so the
length of the input suffices. -/
def camelSegmentsAux : Nat → List Char → List (List Char)
  | 0, _ => []
  | fuel + 1, cs =>
    match cs.dropWhile (fun c => ! isUpperAZ c) with
    | [] => []
    | c :: rest =>
      let upperRun := List.takeWhile isUpperAZ (c :: rest)
      let afterUpper := List.dropWhile isUpperAZ (c :: rest)
      let lowerRun := afterUpper.takeWhile isLowerOrDigitChar
      let afterLower := afterUpper.dropWhile isLowerOrDigitChar
      if afterLower.take 2 = ['3', 'D'] || afterLower.take 2 = ['G', 'L'] then
        (upperRun ++ lowerRun ++ afterLower.take 2) :: camelSegmentsAux fuel (afterLower.drop 2)
      else
        (upperRun ++ lowerRun) :: camelSegmentsAux fuel afterLower

/-- Embeds ManifestWriter::addWordsFromModuleNamesAsTags: every captured
segment of the project identifier is lowercased and inserted into the tag
set. -/
def addWordsFromModuleNamesAsTags (project : String) (tags : Finset String) : Finset String :=
  tags ∪ ((camelSegmentsAux project.toList.length project.toList).map
    (fun seg => strToLower (String.mk seg))).toFinset

/-! ## Theorems for tag cleanup and tokenization -/

/-- C2 counterexample: cleanup is not idempotent.  The tag "a::" loses one
trailing colon and survives as "a:", but a second cleanup strips the
remaining colon and then drops the result for being too short. -/
theorem cleanUpTags_not_idempotent :
    cleanUpTags (cleanUpTags {"a::"}) ≠ cleanUpTags ({"a::"} : Finset String) := by
  decide

theorem stripTag_id (t : String) (h1 : ¬ strStartsWith t "(" = true)
    (h2 : ¬ strEndsWith t ":" = true) : stripTag t = t := by
  unfold stripTag
  rw [if_neg h1, if_neg h2]

/-- C2 (amended): cleanup is idempotent on every set of tags in which no
tag starts with a parenthesis and no tag ends with a colon; on such a set
cleanup performs no rewriting, only exclusion, and exclusion is stable. -/
theorem cleanUpTags_idempotent (s : Finset String)
    (h : ∀ t ∈ s, ¬ strStartsWith t "(" = true ∧ ¬ strEndsWith t ":" = true) :
    cleanUpTags (cleanUpTags s) = cleanUpTags s := by
  have hclean : ∀ s' : Finset String,
      (∀ t ∈ s', ¬ strStartsWith t "(" = true ∧ ¬ strEndsWith t ":" = true) →
      cleanUpTags s' = s'.filter (fun t => keepTag t = true) := by
    intro s' h'
    unfold cleanUpTags
    have hfil : s'.filter (fun tag => keepTag (stripTag tag) = true)
        = s'.filter (fun t => keepTag t = true) := by
      apply Finset.filter_congr
      intro t ht
      rw [stripTag_id t (h' t ht).1 (h' t ht).2]
    rw [hfil]
    have himg : (s'.filter (fun t => keepTag t = true)).image stripTag
        = (s'.filter (fun t => keepTag t = true)).image id := by
      apply Finset.image_congr
      intro t ht
      simp only [Finset.coe_filter, Set.mem_setOf_eq] at ht
      exact stripTag_id t (h' t ht.1).1 (h' t ht.1).2
    rw [himg, Finset.image_id]
  rw [hclean s h]
  have hsub : ∀ t ∈ s.filter (fun t => keepTag t = true),
      ¬ strStartsWith t "(" = true ∧ ¬ strEndsWith t ":" = true := by
    intro t ht
    exact h t (Finset.mem_of_mem_filter t ht)
  rw [hclean _ hsub, Finset.filter_filter]
  apply Finset.filter_congr
  intro t _
  tauto

/-- Witness for the amended C2 theorem at a concrete clean set. -/
theorem cleanUpTags_idempotent_witness :
    cleanUpTags (cleanUpTags ({"ab", "qt"} : Finset String)) = cleanUpTags {"ab", "qt"} :=
  cleanUpTags_idempotent {"ab", "qt"} (by decide)

/-- C3: on the project identifier "QtQuick3D" the tokenizer captures the
segments Qt, Quick3 and D - the greedy digit run swallows the 3, so the
3D alternative of the regex can never fire - and cleanup then leaves only
the tag "quick3".  This contradicts the doc comment of
addWordsFromModuleNamesAsTags, which promises QtQuick3D -> qt,quick3d. -/
theorem qtQuick3D_tokenization :
    addWordsFromModuleNamesAsTags "QtQuick3D" ∅ = {"qt", "quick3", "d"} ∧
    cleanUpTags (addWordsFromModuleNamesAsTags "QtQuick3D" ∅) = {"quick3"} ∧
    cleanUpTags (addWordsFromModuleNamesAsTags "QtQuick3D" ∅) ≠ {"quick3d"} := by
  decide

/-! ## Filter-pattern matching (ManifestWriter::processManifestMetaContent)

The source computes name.indexOf QChar star and switches on the result:
-1 means exact comparison, 0 means the rule matches unconditionally, and
any later position means a prefix comparison against the characters before
the first star. -/

/-- Embeds QString::indexOf for a single character, as an optional index. -/
def indexOfStar : List Char → Option Nat
  | [] => none
  | c :: cs => if c = '*' then some 0 else (indexOfStar cs).map (· + 1)

/-- Embeds QString::left: the first n characters of the string. -/
def stringLeft (s : String) (n : Nat) : String := String.mk (s.toList.take n)

/-- Embeds the match classification of processManifestMetaContent for one
configured name pattern against the example's full name. -/
def patternMatches (fullName pattern : String) : Bool :=
  match indexOfStar pattern.toList with
  | none => fullName == pattern
  | some 0 => true
  | some w => strStartsWith fullName (stringLeft pattern w)

theorem indexOfStar_eq_none (l : List Char) (h : '*' ∉ l) : indexOfStar l = none := by
  induction l with
  | nil => rfl
  | cons c cs ih =>
    simp only [List.mem_cons, not_or] at h
    unfold indexOfStar
    rw [if_neg (fun hc => h.1 hc.symm), ih h.2]
    rfl

/-- C7: the three pattern classes behave as specified.  A pattern without
a star matches exactly the full name equal to it; the pattern consisting
of a single star matches every full name; a pattern with its first star at
a later position matches exactly the full names starting with the
characters before that star. -/
theorem patternMatches_spec (fullName pattern : String) :
    ('*' ∉ pattern.toList →
      (patternMatches fullName pattern = true ↔ fullName = pattern)) ∧
    (pattern = "*" → patternMatches fullName pattern = true) ∧
    (∀ w, indexOfStar pattern.toList = some w → 0 < w →
      (patternMatches fullName pattern = true ↔
        strStartsWith fullName (stringLeft pattern w) = true)) := by
  refine ⟨?_, ?_, ?_⟩
  · intro h
    unfold patternMatches
    rw [indexOfStar_eq_none pattern.toList h]
    exact beq_iff_eq
  · intro h
    subst h
    rfl
  · intro w hw hpos
    unfold patternMatches
    rw [hw]
    match w, hpos with
    | w + 1, _ => exact Iff.rfl

/-- Witness for C7 at concrete patterns: the spec's examples, a pattern
without a star, the pattern MyModule* against MyModule/Foo, and the
all-matching single star. -/
theorem patternMatches_spec_witness :
    patternMatches "MyModule/Foo" "MyModule/Foo" = true ∧
    patternMatches "Anything/At All" "*" = true ∧
    patternMatches "MyModule/Foo" "MyModule*" = true := by
  refine ⟨?_, ?_, ?_⟩
  · exact ((patternMatches_spec "MyModule/Foo" "MyModule/Foo").1 (by decide)).mpr rfl
  · exact (patternMatches_spec "Anything/At All" "*").2.1 rfl
  · exact ((patternMatches_spec "MyModule/Foo" "MyModule*").2.2 8 (by decide)
      (by decide)).mpr (by decide)

/-- C10: any pattern whose first character is a star - not only the
pattern consisting of a single star - matches every full name, because
indexOf returns 0 for it and the switch maps 0 to an unconditional
match. -/
theorem patternMatches_star_head (pattern fullName : String)
    (h : pattern.toList.head? = some '*') :
    patternMatches fullName pattern = true := by
  unfold patternMatches
  match hl : pattern.toList with
  | [] => rw [hl] at h; exact absurd h (by simp)
  | c :: rest =>
    rw [hl] at h
    simp only [List.head?_cons, Option.some.injEq] at h
    subst h
    simp [indexOfStar]

/-- Witness for C10 at a pattern that starts with a star but is not the
single-star pattern. -/
theorem patternMatches_star_head_witness :
    patternMatches "Bar/Baz" "*Foo" = true :=
  patternMatches_star_head "*Foo" "Bar/Baz" (by decide)

/-! ## Manifest-meta filters and attribute writing

ManifestWriter::processManifestMetaContent walks the configured filter
list in order; for every name pattern of a filter that matches the
example's full name it merges the filter's tags into the accumulating tag
set and writes each configured attribute, but only when that attribute key
has not been recorded in usedAttributes yet; a written key is recorded
immediately.  The caller, generateManifestFile, seeds usedAttributes with
name and docUrl and, when present, projectPath and imageUrl. -/

/-- Configuration record for one manifestmeta filter section. -/
structure ManifestMetaFilter where
  names : List String
  attributes : List String
  tags : List String

/-- The example fields read by the manifest compiler. -/
structure ExampleData where
  name : String
  title : String
  projectFile : String
  imageFileName : String
  briefText : String
  files : List String
  metaTagMap : List (String × String)

/-- Embeds the attribute-spec parsing of processManifestMetaContent: the
spec is split on colons, a lone key defaults its value to "true", and the
remaining parts are joined back with colons as the value. -/
def splitAttr (attributeSpec : String) : String × String :=
  match strSplitOn attributeSpec ':' with
  | [] => ("", "")
  | [attrName] => (attrName, "true")
  | attrName :: rest => (attrName, String.intercalate ":" rest)

/-- The mutable context threaded through processManifestMetaContent: the
usedAttributes list, the attribute writer calls made so far, and the
accumulating tag set m_tags. -/
structure PMCState where
  used : List String
  written : List (String × String)
  tags : Finset String

/-- Embeds the body of the attribute loop: a key still absent from
usedAttributes is written and recorded, anything else is skipped. -/
def processAttribute (st : PMCState) (attributeSpec : String) : PMCState :=
  let attrName := (splitAttr attributeSpec).1
  if attrName ∈ st.used then st
  else
    { used := st.used ++ [attrName],
      written := st.written ++ [(attrName, (splitAttr attributeSpec).2)],
      tags := st.tags }

/-- Embeds the handling of one configured name pattern: on a match the
filter's tags are merged and its attributes are processed in order. -/
def processName (filter : ManifestMetaFilter) (fullName : String)
    (st : PMCState) (pattern : String) : PMCState :=
  if patternMatches fullName pattern then
    filter.attributes.foldl processAttribute
      { st with tags := st.tags ∪ filter.tags.toFinset }
  else st

/-- Embeds the loop over one filter's name patterns. -/
def processFilter (fullName : String) (st : PMCState) (filter : ManifestMetaFilter) : PMCState :=
  filter.names.foldl (processName filter fullName) st

/-- Embeds ManifestWriter::processManifestMetaContent over the configured
filter list. -/
def processManifestMetaContent (filters : List ManifestMetaFilter) (fullName : String)
    (st : PMCState) : PMCState :=
  filters.foldl (processFilter fullName) st

/-- Embeds the seeding of usedAttributes in generateManifestFile: name and
docUrl always, projectPath and imageUrl exactly when the example carries a
project file or an image file. -/
def initialUsedAttributes (e : ExampleData) : List String :=
  ["name", "docUrl"]
    ++ (if e.projectFile ≠ "" then ["projectPath"] else [])
    ++ (if e.imageFileName ≠ "" then ["imageUrl"] else [])

/-! Specification-side definitions for the first-writer-wins claim,
written from the claim's words rather than from the loop. -/

/-- First value bound to a key in an association list. -/
def firstValue (key : String) : List (String × String) → Option String
  | [] => none
  | kv :: rest => if kv.1 = key then some kv.2 else firstValue key rest

/-- A filter rule matches when any of its name patterns matches. -/
def filterMatches (fullName : String) (f : ManifestMetaFilter) : Bool :=
  f.names.any (patternMatches fullName)

/-- The value a single filter rule configures for a key, if any. -/
def configuredValue (f : ManifestMetaFilter) (key : String) : Option String :=
  firstValue key (f.attributes.map splitAttr)

/-- The value the first matching-and-configuring rule supplies for a key,
scanning the filters in configured order. -/
def firstWriterValue (fullName key : String) : List ManifestMetaFilter → Option String
  | [] => none
  | f :: fs =>
    if filterMatches fullName f then
      match configuredValue f key with
      | some v => some v
      | none => firstWriterValue fullName key fs
    else firstWriterValue fullName key fs

/-! ## First-writer-wins for attributes (C6)

The proof tracks, for one fixed attribute key, the pair consisting of
"the key is in usedAttributes" and "the first value written for the key";
every step of the nested loops transforms that pair in a way that depends
only on the pair itself, which reduces the nested folds to a single fold
on pairs. -/

/-- Projection of the state onto one attribute key. -/
def keyView (key : String) (st : PMCState) : Bool × Option String :=
  (decide (key ∈ st.used), firstValue key st.written)

/-- How one attribute spec transforms the projection. -/
def trackAttr (key : String) (p : Bool × Option String) (attributeSpec : String) :
    Bool × Option String :=
  if (splitAttr attributeSpec).1 = key then
    if p.1 then p else (true, p.2.or (some (splitAttr attributeSpec).2))
  else p

theorem firstValue_append (key : String) (l1 l2 : List (String × String)) :
    firstValue key (l1 ++ l2) = (firstValue key l1).or (firstValue key l2) := by
  induction l1 with
  | nil => rfl
  | cons kv rest ih =>
    simp only [List.cons_append, firstValue]
    by_cases h : kv.1 = key
    · simp [h]
    · simp [h, ih]

theorem keyView_processAttribute (key : String) (st : PMCState) (a : String) :
    keyView key (processAttribute st a) = trackAttr key (keyView key st) a := by
  unfold processAttribute trackAttr keyView
  by_cases h1 : (splitAttr a).1 ∈ st.used
  · rw [if_pos h1]
    by_cases h2 : (splitAttr a).1 = key
    · have : decide (key ∈ st.used) = true := decide_eq_true (h2 ▸ h1)
      simp [h2, this]
    · simp [h2]
  · rw [if_neg h1]
    by_cases h2 : (splitAttr a).1 = key
    · have hd : decide (key ∈ st.used) = false := decide_eq_false (h2 ▸ h1)
      rw [h2, firstValue_append]
      simp [hd, firstValue]
    · have hne : ¬ key = (splitAttr a).1 := fun h => h2 h.symm
      rw [firstValue_append]
      simp [h2, hne, firstValue]

theorem keyView_foldl_attrs (key : String) (attrs : List String) :
    ∀ st : PMCState, keyView key (attrs.foldl processAttribute st)
      = attrs.foldl (trackAttr key) (keyView key st) := by
  induction attrs with
  | nil => intro st; rfl
  | cons a rest ih =>
    intro st
    simp only [List.foldl_cons]
    rw [ih (processAttribute st a), keyView_processAttribute]

theorem trackAttr_foldl_true (key : String) (attrs : List String) (w : Option String) :
    attrs.foldl (trackAttr key) (true, w) = (true, w) := by
  induction attrs with
  | nil => rfl
  | cons a rest ih =>
    simp only [List.foldl_cons]
    have : trackAttr key (true, w) a = (true, w) := by
      unfold trackAttr
      split <;> simp
    rw [this, ih]

theorem trackAttr_foldl_false (key : String) (attrs : List String) (w : Option String) :
    attrs.foldl (trackAttr key) (false, w)
      = match firstValue key (attrs.map splitAttr) with
        | none => (false, w)
        | some v => (true, w.or (some v)) := by
  induction attrs with
  | nil => rfl
  | cons a rest ih =>
    simp only [List.foldl_cons, List.map_cons, firstValue]
    by_cases h : (splitAttr a).1 = key
    · have ht : trackAttr key (false, w) a = (true, w.or (some (splitAttr a).2)) := by
        unfold trackAttr
        simp [h]
      rw [ht, trackAttr_foldl_true, if_pos h]
    · have ht : trackAttr key (false, w) a = (false, w) := by
        unfold trackAttr
        simp [h]
      rw [ht, ih, if_neg h]

theorem trackAttr_foldl_idem (key : String) (attrs : List String) (p : Bool × Option String) :
    attrs.foldl (trackAttr key) (attrs.foldl (trackAttr key) p)
      = attrs.foldl (trackAttr key) p := by
  obtain ⟨b, w⟩ := p
  cases b
  · have h1 := trackAttr_foldl_false key attrs w
    cases hv : firstValue key (attrs.map splitAttr) with
    | none =>
      rw [hv] at h1
      simp only [] at h1
      rw [h1]
      exact h1
    | some v =>
      rw [hv] at h1
      simp only [] at h1
      rw [h1]
      exact trackAttr_foldl_true key attrs _
  · rw [trackAttr_foldl_true, trackAttr_foldl_true]

theorem keyView_processName (key : String) (f : ManifestMetaFilter) (fullName : String)
    (st : PMCState) (pattern : String) :
    keyView key (processName f fullName st pattern)
      = if patternMatches fullName pattern then
          f.attributes.foldl (trackAttr key) (keyView key st)
        else keyView key st := by
  unfold processName
  by_cases h : patternMatches fullName pattern
  · rw [if_pos h, if_pos h, keyView_foldl_attrs]
    rfl
  · rw [if_neg h, if_neg h]

theorem keyView_processFilter (key : String) (f : ManifestMetaFilter) (fullName : String) :
    ∀ st : PMCState, keyView key (processFilter fullName st f)
      = if filterMatches fullName f then
          f.attributes.foldl (trackAttr key) (keyView key st)
        else keyView key st := by
  have main : ∀ (names : List String) (st : PMCState),
      keyView key (names.foldl (processName f fullName) st)
        = if names.any (patternMatches fullName) then
            f.attributes.foldl (trackAttr key) (keyView key st)
          else keyView key st := by
    intro names
    induction names with
    | nil => intro st; simp
    | cons n ns ih =>
      intro st
      simp only [List.foldl_cons, List.any_cons]
      rw [ih (processName f fullName st n), keyView_processName]
      by_cases h : patternMatches fullName n = true
      · by_cases h2 : ns.any (patternMatches fullName) = true
        · simp [h, h2, trackAttr_foldl_idem]
        · simp [h, h2]
      · have hb : patternMatches fullName n = false := by
          revert h; cases patternMatches fullName n <;> simp
        simp [hb]
  intro st
  exact main f.names st

theorem keyView_pMMC_true (key fullName : String) (filters : List ManifestMetaFilter)
    (w : Option String) :
    ∀ st : PMCState, keyView key st = (true, w) →
      keyView key (processManifestMetaContent filters fullName st) = (true, w) := by
  induction filters with
  | nil => intro st h; exact h
  | cons f fs ih =>
    intro st h
    simp only [processManifestMetaContent, List.foldl_cons]
    apply ih
    rw [keyView_processFilter, h]
    split
    · exact trackAttr_foldl_true key f.attributes w
    · rfl

theorem keyView_pMMC_false (key fullName : String) (filters : List ManifestMetaFilter) :
    ∀ st : PMCState, keyView key st = (false, none) →
      keyView key (processManifestMetaContent filters fullName st)
        = match firstWriterValue fullName key filters with
          | some v => (true, some v)
          | none => (false, none) := by
  induction filters with
  | nil => intro st h; exact h
  | cons f fs ih =>
    intro st h
    simp only [processManifestMetaContent, List.foldl_cons]
    unfold firstWriterValue
    by_cases hm : filterMatches fullName f
    · have hview : keyView key (processFilter fullName st f)
          = match configuredValue f key with
            | some v => (true, some v)
            | none => (false, none) := by
        rw [keyView_processFilter, if_pos hm, h, trackAttr_foldl_false]
        unfold configuredValue
        cases firstValue key (f.attributes.map splitAttr) <;> simp [Option.or]
      cases hv : configuredValue f key with
      | some v =>
        rw [hv] at hview
        have := keyView_pMMC_true key fullName fs (some v) _ hview
        simp only [processManifestMetaContent] at this
        rw [this]
        simp [hm, hv]
      | none =>
        rw [hv] at hview
        have := ih _ hview
        simp only [processManifestMetaContent] at this
        rw [this]
        simp [hm, hv]
    · have hview : keyView key (processFilter fullName st f) = (false, none) := by
        rw [keyView_processFilter, if_neg hm, h]
      have := ih _ hview
      simp only [processManifestMetaContent] at this
      rw [this]
      simp [hm]

/-- Invariant of the attribute writer: no key is written twice, and every
written key is recorded in usedAttributes. -/
def goodState (st : PMCState) : Prop :=
  (st.written.map Prod.fst).Nodup ∧ ∀ k ∈ st.written.map Prod.fst, k ∈ st.used

theorem foldl_preserve {α β : Type _} (P : α → Prop) (f : α → β → α)
    (hf : ∀ a b, P a → P (f a b)) : ∀ (l : List β) (a : α), P a → P (l.foldl f a) := by
  intro l
  induction l with
  | nil => intro a h; exact h
  | cons b rest ih => intro a h; exact ih _ (hf a b h)

theorem goodState_processAttribute (st : PMCState) (a : String) (h : goodState st) :
    goodState (processAttribute st a) := by
  unfold processAttribute
  by_cases h1 : (splitAttr a).1 ∈ st.used
  · rw [if_pos h1]
    exact h
  · rw [if_neg h1]
    obtain ⟨hnd, hsub⟩ := h
    constructor
    · simp only [List.map_append, List.map_cons, List.map_nil]
      rw [List.nodup_append]
      refine ⟨hnd, List.nodup_singleton _, ?_⟩
      intro x hx hx2
      simp only [List.mem_singleton] at hx2
      subst hx2
      exact h1 (hsub _ hx)
    · intro k hk
      simp only [List.map_append, List.map_cons, List.map_nil, List.mem_append,
        List.mem_singleton] at hk
      rcases hk with hk | hk
      · exact List.mem_append_left _ (hsub _ hk)
      · subst hk
        exact List.mem_append_right _ (List.mem_singleton_self _)

theorem goodState_processName (f : ManifestMetaFilter) (fullName : String)
    (st : PMCState) (pattern : String) (h : goodState st) :
    goodState (processName f fullName st pattern) := by
  unfold processName
  split
  · exact foldl_preserve goodState processAttribute goodState_processAttribute
      f.attributes _ h
  · exact h

theorem goodState_processFilter (f : ManifestMetaFilter) (fullName : String)
    (st : PMCState) (h : goodState st) : goodState (processFilter fullName st f) :=
  foldl_preserve goodState (processName f fullName)
    (fun a b hp => goodState_processName f fullName a b hp) f.names st h

theorem goodState_pMMC (filters : List ManifestMetaFilter) (fullName : String)
    (st : PMCState) (h : goodState st) :
    goodState (processManifestMetaContent filters fullName st) :=
  foldl_preserve goodState (processFilter fullName)
    (fun a b hp => goodState_processFilter b fullName a hp) filters st h

/-- C6: attribute writing is first-writer-wins.  Starting from the
usedAttributes list seeded by generateManifestFile (name and docUrl
always, projectPath and imageUrl when present), the value written for a
key is the one supplied by the first matching filter rule that configures
that key, a seeded key is never written at all, and no key is ever written
twice by the filter loop. -/
theorem processManifestMetaContent_first_writer_wins
    (filters : List ManifestMetaFilter) (fullName key : String) (e : ExampleData) :
    (firstValue key (processManifestMetaContent filters fullName
        ⟨initialUsedAttributes e, [], ∅⟩).written
      = (if key ∈ initialUsedAttributes e then none
         else firstWriterValue fullName key filters)) ∧
    ((processManifestMetaContent filters fullName
        ⟨initialUsedAttributes e, [], ∅⟩).written.map Prod.fst).Nodup := by
  constructor
  · by_cases hk : key ∈ initialUsedAttributes e
    · rw [if_pos hk]
      have h0 : keyView key ⟨initialUsedAttributes e, [], ∅⟩ = (true, none) := by
        unfold keyView
        simp [hk, firstValue]
      have hfin := keyView_pMMC_true key fullName filters none _ h0
      have h2 := congrArg Prod.snd hfin
      simpa [keyView] using h2
    · rw [if_neg hk]
      have h0 : keyView key ⟨initialUsedAttributes e, [], ∅⟩ = (false, none) := by
        unfold keyView
        simp [hk, firstValue]
      have hfin := keyView_pMMC_false key fullName filters _ h0
      have h2 := congrArg Prod.snd hfin
      cases hv : firstWriterValue fullName key filters with
      | none =>
        rw [hv] at h2
        simpa [keyView] using h2
      | some v =>
        rw [hv] at h2
        simpa [keyView] using h2
  · have h0 : goodState ⟨initialUsedAttributes e, [], ∅⟩ := by
      constructor
      · exact List.nodup_nil
      · intro k hk
        simp at hk
    exact (goodState_pMMC filters fullName _ h0).1

/-! ## File-to-open ranking (getFilesToOpen)

The source walks the example's file list and inserts each interesting file
into a QMap keyed by priority; QMap::insert replaces an existing entry, so
within one priority the last file encountered wins.  The QMap is modelled
as an association list kept sorted by key, with a replacing insert. -/

/-- Embeds QFileInfo::fileName: the part after the last slash. -/
def fileInfoFileName (path : String) : String :=
  (strSplitOn path '/').getLastD path

/-- Embeds QFileInfo::baseName: the file name up to the first dot. -/
def fileInfoBaseName (path : String) : String :=
  (strSplitOn (fileInfoFileName path) '.').headD ""

/-- Replacing insert into a key-sorted association list, the QMap insert. -/
def mapInsert : List (Nat × String) → Nat → String → List (Nat × String)
  | [], k, v => [(k, v)]
  | kv :: rest, k, v =>
    if k < kv.1 then (k, v) :: kv :: rest
    else if k = kv.1 then (k, v) :: rest
    else kv :: mapInsert rest k v

/-- Lookup in the association list modelling the QMap. -/
def mapLookup (k : Nat) : List (Nat × String) → Option String
  | [] => none
  | kv :: rest => if kv.1 = k then some kv.2 else mapLookup k rest

/-- Embeds the loop body of getFilesToOpen (the local variable fileName,
the lowercased file name, is inlined): a file whose base name equals the
example name case-insensitively is ranked 0/1/2 by its qml/cpp/h
extension; otherwise a file name ending in main.qml ranks 3 and one ending
in main.cpp ranks 4; anything else is skipped. -/
def rankFile (filesToOpen : List (Nat × String)) (exampleName file : String) :
    List (Nat × String) :=
  if strToLower (fileInfoBaseName file) = strToLower exampleName then
    if strEndsWith (strToLower (fileInfoFileName file)) ".qml" then
      mapInsert filesToOpen 0 file
    else if strEndsWith (strToLower (fileInfoFileName file)) ".cpp" then
      mapInsert filesToOpen 1 file
    else if strEndsWith (strToLower (fileInfoFileName file)) ".h" then
      mapInsert filesToOpen 2 file
    else filesToOpen
  else if strEndsWith (strToLower (fileInfoFileName file)) "main.qml" then
    mapInsert filesToOpen 3 file
  else if strEndsWith (strToLower (fileInfoFileName file)) "main.cpp" then
    mapInsert filesToOpen 4 file
  else filesToOpen

/-- Embeds getFilesToOpen: fold of the loop body over the file list,
starting from the empty map. -/
def getFilesToOpen (files : List String) (exampleName : String) : List (Nat × String) :=
  files.foldl (fun m file => rankFile m exampleName file) []

/-- Specification-side priority of a single file, written from the claim. -/
def claimPriority (file exampleName : String) : Option Nat :=
  if strToLower (fileInfoBaseName file) = strToLower exampleName then
    if strEndsWith (strToLower (fileInfoFileName file)) ".qml" then some 0
    else if strEndsWith (strToLower (fileInfoFileName file)) ".cpp" then some 1
    else if strEndsWith (strToLower (fileInfoFileName file)) ".h" then some 2
    else none
  else if strEndsWith (strToLower (fileInfoFileName file)) "main.qml" then some 3
  else if strEndsWith (strToLower (fileInfoFileName file)) "main.cpp" then some 4
  else none

theorem rankFile_eq_claimPriority (m : List (Nat × String)) (exampleName file : String) :
    rankFile m exampleName file
      = match claimPriority file exampleName with
        | some p => mapInsert m p file
        | none => m := by
  unfold rankFile claimPriority
  by_cases h1 : strToLower (fileInfoBaseName file) = strToLower exampleName
  · by_cases h2 : strEndsWith (strToLower (fileInfoFileName file)) ".qml" = true
    · simp [h1, h2]
    · by_cases h3 : strEndsWith (strToLower (fileInfoFileName file)) ".cpp" = true
      · simp [h1, h2, h3]
      · by_cases h4 : strEndsWith (strToLower (fileInfoFileName file)) ".h" = true
        · simp [h1, h2, h3, h4]
        · simp [h1, h2, h3, h4]
  · by_cases h2 : strEndsWith (strToLower (fileInfoFileName file)) "main.qml" = true
    · simp [h1, h2]
    · by_cases h3 : strEndsWith (strToLower (fileInfoFileName file)) "main.cpp" = true
      · simp [h1, h2, h3]
      · simp [h1, h2, h3]

theorem mapLookup_insert (m : List (Nat × String)) (k : Nat) (v : String) (p : Nat) :
    mapLookup p (mapInsert m k v) = if k = p then some v else mapLookup p m := by
  induction m with
  | nil =>
    by_cases h : k = p <;> simp [mapInsert, mapLookup, h]
  | cons kv rest ih =>
    unfold mapInsert
    by_cases h1 : k < kv.1
    · rw [if_pos h1]
      by_cases h : k = p <;> simp [mapLookup, h]
    · rw [if_neg h1]
      by_cases h2 : k = kv.1
      · rw [if_pos h2]
        by_cases h : k = p
        · simp [mapLookup, h]
        · simp [mapLookup, h, ← h2]
      · rw [if_neg h2]
        by_cases h3 : kv.1 = p
        · have hne : ¬ k = p := fun hkp => h2 (hkp.trans h3.symm)
          simp [mapLookup, h3, hne]
        · simp [mapLookup, h3, ih]

theorem getLast?_cons {α : Type _} (a : α) (l : List α) :
    (a :: l).getLast? = l.getLast?.or (some a) := by
  cases l with
  | nil => rfl
  | cons b t =>
    rw [List.getLast?_cons_cons]
    have hs : (b :: t).getLast?.isSome = true := by
      rw [List.getLast?_isSome]
      simp
    cases hv : (b :: t).getLast? with
    | none => rw [hv] at hs; simp at hs
    | some x => rfl

theorem getFilesToOpen_foldl (exampleName : String) (p : Nat) :
    ∀ (files : List String) (m : List (Nat × String)),
      mapLookup p (files.foldl (fun acc file => rankFile acc exampleName file) m)
        = ((files.filter (fun f => claimPriority f exampleName = some p)).getLast?).or
            (mapLookup p m) := by
  intro files
  induction files with
  | nil =>
    intro m
    simp [List.filter_nil]
  | cons f fs ih =>
    intro m
    simp only [List.foldl_cons, List.filter_cons]
    cases hq : claimPriority f exampleName with
    | none =>
      have hr : rankFile m exampleName f = m := by
        rw [rankFile_eq_claimPriority, hq]
      rw [hr, ih m]
      simp
    | some q =>
      have hr : rankFile m exampleName f = mapInsert m q f := by
        rw [rankFile_eq_claimPriority, hq]
      rw [hr, ih (mapInsert m q f), mapLookup_insert]
      by_cases hpq : q = p
      · rw [if_pos hpq]
        rw [if_pos (show decide ((some q : Option Nat) = some p) = true by simp [hpq]),
          getLast?_cons]
        have habs : ∀ x y : Option String, (x.or (some f)).or y = x.or (some f) := by
          intro x y
          cases x <;> rfl
        rw [habs]
      · rw [if_neg hpq]
        simp [hpq]

/-- C5: the ranking is fully characterized per priority bucket.  The file
stored at priority p is the last file of the input list that the claim's
classification sends to p; in particular a priority never used is absent,
files not matching any clause are excluded, and within a bucket the last
writer wins. -/
theorem getFilesToOpen_spec (files : List String) (exampleName : String) (p : Nat) :
    mapLookup p (getFilesToOpen files exampleName)
      = (files.filter (fun f => claimPriority f exampleName = some p)).getLast? := by
  unfold getFilesToOpen
  rw [getFilesToOpen_foldl]
  simp [mapLookup]

/-! ## Serialization of fileToOpen blocks (writeFilesToOpen)

The source iterates the QMap from constEnd back to constBegin, so blocks
come out in decreasing key order; the iteration step that reaches
constBegin - the entry with the smallest key - adds the mainFile
attribute.  A block records the mainFile flag, the priority of the map
entry it came from, and the character data written (install path plus file
path). -/

/-- One emitted fileToOpen element. -/
structure FileBlock where
  mainFile : Bool
  priority : Nat
  contents : String
deriving DecidableEq

/-- Embeds the reverse iteration of writeFilesToOpen, applied to the
reversed entry list: the last entry emitted (constBegin) carries the
mainFile attribute. -/
def emitFilesToOpen (installPath : String) : List (Nat × String) → List FileBlock
  | [] => []
  | [kv] => [⟨true, kv.1, installPath ++ kv.2⟩]
  | kv :: rest => ⟨false, kv.1, installPath ++ kv.2⟩ :: emitFilesToOpen installPath rest

/-- Embeds writeFilesToOpen: the key-sorted map is walked from its last
entry back to its first. -/
def writeFilesToOpen (installPath : String) (filesToOpen : List (Nat × String)) :
    List FileBlock :=
  emitFilesToOpen installPath filesToOpen.reverse

theorem emitFilesToOpen_cons (installPath : String) (kv : Nat × String)
    (l : List (Nat × String)) (h : l ≠ []) :
    emitFilesToOpen installPath (kv :: l)
      = ⟨false, kv.1, installPath ++ kv.2⟩ :: emitFilesToOpen installPath l := by
  cases l with
  | nil => exact absurd rfl h
  | cons b t => rfl

theorem emitFilesToOpen_map_priority (installPath : String) :
    ∀ l : List (Nat × String),
      (emitFilesToOpen installPath l).map FileBlock.priority = l.map Prod.fst
  | [] => rfl
  | [kv] => rfl
  | kv :: b :: t => by
    rw [emitFilesToOpen_cons installPath kv (b :: t) (by simp)]
    simp only [List.map_cons]
    rw [emitFilesToOpen_map_priority installPath (b :: t), List.map_cons]

theorem emitFilesToOpen_concat (installPath : String) (kv : Nat × String) :
    ∀ l : List (Nat × String),
      emitFilesToOpen installPath (l ++ [kv])
        = l.map (fun e => ⟨false, e.1, installPath ++ e.2⟩) ++ [⟨true, kv.1, installPath ++ kv.2⟩] := by
  intro l
  induction l with
  | nil => rfl
  | cons b t ih =>
    rw [List.cons_append, emitFilesToOpen_cons installPath b (t ++ [kv]) (by simp)]
    simp only [List.map_cons, List.cons_append]
    rw [ih]

/-- C1 counterexample: for the ranking with priority 0 mapped to foo.qml
and priority 1 mapped to foo.cpp, the blocks are emitted with priorities
1 then 0, so the most-preferred file is written last, not first. -/
theorem writeFilesToOpen_order_counterexample :
    (writeFilesToOpen "p/" [(0, "foo.qml"), (1, "foo.cpp")]).map FileBlock.priority
      = [1, 0] ∧
    (writeFilesToOpen "p/" [(0, "foo.qml"), (1, "foo.cpp")]).map FileBlock.priority
      ≠ [0, 1] := by
  decide

/-- C1 (amended): for every ranking (a map sorted by strictly increasing
priority), the fileToOpen blocks are emitted in order of decreasing
priority number - the least-preferred file first and the most-preferred
file, the lowest priority number present, last. -/
theorem writeFilesToOpen_descending (installPath : String) (m : List (Nat × String))
    (h : List.Sorted (· < ·) (m.map Prod.fst)) :
    (writeFilesToOpen installPath m).map FileBlock.priority = (m.map Prod.fst).reverse ∧
    List.Sorted (· > ·) ((writeFilesToOpen installPath m).map FileBlock.priority) := by
  have heq : (writeFilesToOpen installPath m).map FileBlock.priority
      = (m.map Prod.fst).reverse := by
    unfold writeFilesToOpen
    rw [emitFilesToOpen_map_priority, List.map_reverse]
  refine ⟨heq, ?_⟩
  rw [heq]
  rw [List.Sorted, List.pairwise_reverse]
  exact h

/-- Witness for the amended C1 theorem at a concrete two-entry ranking. -/
theorem writeFilesToOpen_descending_witness :
    (writeFilesToOpen "p/" [(0, "foo.qml"), (1, "foo.cpp")]).map FileBlock.priority
      = [1, 0] ∧
    List.Sorted (· > ·)
      ((writeFilesToOpen "p/" [(0, "foo.qml"), (1, "foo.cpp")]).map FileBlock.priority) := by
  have h := writeFilesToOpen_descending "p/" [(0, "foo.qml"), (1, "foo.cpp")]
    (by simp [List.Sorted])
  exact ⟨h.1.trans (by decide), h.2⟩

theorem filter_mainFile_of_false (installPath : String) (l : List (Nat × String)) :
    (l.map (fun e => (⟨false, e.1, installPath ++ e.2⟩ : FileBlock))).filter
      (fun b => b.mainFile) = [] := by
  induction l with
  | nil => rfl
  | cons b t ih => simpa using ih

/-- C4: the blocks carrying the mainFile attribute are exactly one block
for the first entry of the ranking - the entry with the lowest priority
number, its key being minimal in the key-sorted map - and an empty ranking
produces no block at all. -/
theorem writeFilesToOpen_mainFile (installPath : String) (m : List (Nat × String))
    (h : List.Sorted (· < ·) (m.map Prod.fst)) :
    ((writeFilesToOpen installPath m).filter (fun b => b.mainFile)
      = (m.head?.map (fun e => (⟨true, e.1, installPath ++ e.2⟩ : FileBlock))).toList) ∧
    (∀ kv ∈ m, ∀ e, m.head? = some e → e.1 ≤ kv.1) ∧
    writeFilesToOpen installPath ([] : List (Nat × String)) = [] := by
  refine ⟨?_, ?_, rfl⟩
  · cases m with
    | nil => rfl
    | cons e rest =>
      unfold writeFilesToOpen
      rw [List.reverse_cons, emitFilesToOpen_concat, List.filter_append,
        filter_mainFile_of_false]
      simp
  · intro kv hkv e he
    cases m with
    | nil => simp at he
    | cons e0 rest =>
      simp only [List.head?_cons, Option.some.injEq] at he
      subst he
      simp only [List.map_cons, List.sorted_cons] at h
      rcases List.mem_cons.mp hkv with hkv | hkv
      · subst hkv
        exact le_refl _
      · exact le_of_lt (h.1 kv.1 (List.mem_map_of_mem Prod.fst hkv))

/-- Witness for the C4 theorem at a concrete ranking. -/
theorem writeFilesToOpen_mainFile_witness :
    (writeFilesToOpen "p/" [(0, "foo.qml"), (1, "foo.cpp")]).filter (fun b => b.mainFile)
      = [⟨true, 0, "p/foo.qml"⟩] := by
  have h := writeFilesToOpen_mainFile "p/" [(0, "foo.qml"), (1, "foo.cpp")]
    (by simp [List.Sorted])
  exact h.1.trans (by decide)

/-! ## Demo/example partition (generateManifestFile)

generateManifestFile computes a demos flag from the manifest kind and
skips an example unless the flag agrees with whether the example's name
starts with "demos"; it bails out early when there are no examples at all
or none of the requested kind. -/

/-- Embeds the routing test of the per-example loop. -/
def manifestIncludes (manifest exampleName : String) : Bool :=
  (manifest == "demos") == strStartsWith exampleName "demos"

/-- Embeds the selection of generateManifestFile for one manifest kind:
the early returns for an empty example map and for a kind with no
examples, then the loop serializing exactly the examples that pass the
routing test, in order. -/
def serializedExamples (manifest : String) (exampleNames : List String) : List String :=
  if exampleNames.isEmpty then []
  else if exampleNames.all (fun n => ! manifestIncludes manifest n) then []
  else exampleNames.filter (fun n => manifestIncludes manifest n)

theorem mem_serializedExamples (manifest : String) (exampleNames : List String)
    (name : String) (h : name ∈ exampleNames) :
    name ∈ serializedExamples manifest exampleNames
      ↔ manifestIncludes manifest name = true := by
  unfold serializedExamples
  by_cases h1 : exampleNames.isEmpty
  · rw [if_pos h1]
    rw [List.isEmpty_iff] at h1
    subst h1
    simp at h
  · rw [if_neg h1]
    by_cases h2 : exampleNames.all (fun n => ! manifestIncludes manifest n) = true
    · rw [if_pos h2]
      rw [List.all_eq_true] at h2
      have hx := h2 name h
      simp only [Bool.not_eq_true'] at hx
      simp [hx]
    · rw [if_neg h2]
      simp [List.mem_filter, h]

/-- C8: routing to the two manifests is a pure function of the "demos"
name prefix: an example whose name starts with "demos" is serialized into
the demos manifest and not the examples manifest, every other example into
the examples manifest and not the demos manifest, so each example appears
in exactly one of the two. -/
theorem demos_examples_partition (exampleNames : List String) (name : String)
    (h : name ∈ exampleNames) :
    (name ∈ serializedExamples "demos" exampleNames
      ↔ strStartsWith name "demos" = true) ∧
    (name ∈ serializedExamples "examples" exampleNames
      ↔ strStartsWith name "demos" = false) ∧
    (name ∈ serializedExamples "demos" exampleNames
      ↔ ¬ name ∈ serializedExamples "examples" exampleNames) := by
  have hd := mem_serializedExamples "demos" exampleNames name h
  have he := mem_serializedExamples "examples" exampleNames name h
  have hdm : manifestIncludes "demos" name = strStartsWith name "demos" := by
    unfold manifestIncludes
    cases hs : strStartsWith name "demos" <;> rfl
  have hem : manifestIncludes "examples" name = ! strStartsWith name "demos" := by
    unfold manifestIncludes
    cases hs : strStartsWith name "demos" <;> rfl
  rw [hdm] at hd
  rw [hem] at he
  refine ⟨hd, he.trans (by cases hs : strStartsWith name "demos" <;> simp), ?_⟩
  rw [hd, he]
  cases hs : strStartsWith name "demos" <;> simp

/-- Witness for C8: a demos-prefixed example lands in the demos manifest
and not in the examples manifest. -/
theorem demos_examples_partition_witness :
    "demos/foo" ∈ serializedExamples "demos" ["demos/foo", "bar"] ∧
    ¬ "demos/foo" ∈ serializedExamples "examples" ["demos/foo", "bar"] := by
  have h := demos_examples_partition ["demos/foo", "bar"] "demos/foo" (by decide)
  have hmem := h.1.mpr (by decide)
  exact ⟨hmem, h.2.2.mp hmem⟩

/-! ## Per-example tag lifecycle (C9)

Within generateManifestFile's loop the member m_tags accumulates tags from
the filter step, the module-name words, the meta-command tags and the
title words; cleanUpTags rewrites the set and writeTagsElement either
skips an empty set or writes the sorted comma-joined tags and clears the
member.  Either way the member is empty when the next example starts. -/

/-- Embeds ManifestWriter::addTitleWordsToTags. -/
def addTitleWordsToTags (e : ExampleData) (tags : Finset String) : Finset String :=
  tags ∪ (strSplitOn (strToLower e.title) ' ').toFinset

/-- Embeds ManifestWriter::includeTagsAddedWithMetaCommand: every value
stored under the tag key is lowercased, split on commas and merged. -/
def includeTagsAddedWithMetaCommand (e : ExampleData) (tags : Finset String) : Finset String :=
  ((e.metaTagMap.filter (fun kv => kv.1 = "tag")).map Prod.snd).foldl
    (fun acc tag => acc ∪ (strSplitOn (strToLower tag) ',').toFinset) tags

/-- Embeds ManifestWriter::writeTagsElement: an empty tag set produces no
element and no clearing is needed; otherwise the sorted comma-joined tags
are written and the member is cleared. -/
def writeTagsElement (tags : Finset String) : Option String × Finset String :=
  if tags = ∅ then (none, tags)
  else (some (String.intercalate "," (tags.sort (· ≤ ·))), ∅)

/-- Embeds one iteration of the per-example loop, restricted to the tag
pipeline, in source order: the filter step (which merges filter tags into
the member), module-name words, meta-command tags, title words, cleanup,
and the tags element write. Returns the written element and the member's
final value. -/
def exampleTagStep (filters : List ManifestMetaFilter) (project : String)
    (tags : Finset String) (e : ExampleData) : Option String × Finset String :=
  writeTagsElement (cleanUpTags (addTitleWordsToTags e
    (includeTagsAddedWithMetaCommand e
      (addWordsFromModuleNamesAsTags project
        (processManifestMetaContent filters (project ++ "/" ++ e.title)
          ⟨initialUsedAttributes e, [], tags⟩).tags))))

/-- The loop over all examples of a manifest, threading the m_tags member
and collecting each example's tags element. -/
def processAllExamples (filters : List ManifestMetaFilter) (project : String)
    (tags : Finset String) : List ExampleData → List (Option String)
  | [] => []
  | e :: rest =>
    (exampleTagStep filters project tags e).1
      :: processAllExamples filters project (exampleTagStep filters project tags e).2 rest

theorem writeTagsElement_snd (s : Finset String) : (writeTagsElement s).2 = ∅ := by
  unfold writeTagsElement
  by_cases h : s = ∅
  · rw [if_pos h]
    exact h
  · rw [if_neg h]

/-- C9: the m_tags member is empty after every example regardless of what
it held before, so the loop computes each example's tags element from an
empty set: the outputs of the threaded loop coincide with the per-example
function started on the empty set, and no tag leaks into a later
example. -/
theorem tags_cleared_after_each_example (filters : List ManifestMetaFilter)
    (project : String) :
    (∀ (tags : Finset String) (e : ExampleData),
      (exampleTagStep filters project tags e).2 = ∅) ∧
    (∀ examples : List ExampleData,
      processAllExamples filters project ∅ examples
        = examples.map (fun e => (exampleTagStep filters project ∅ e).1)) := by
  have hstep : ∀ (tags : Finset String) (e : ExampleData),
      (exampleTagStep filters project tags e).2 = ∅ := by
    intro tags e
    unfold exampleTagStep
    exact writeTagsElement_snd _
  refine ⟨hstep, ?_⟩
  intro examples
  induction examples with
  | nil => rfl
  | cons e rest ih =>
    unfold processAllExamples
    rw [hstep, ih, List.map_cons]
